import Mathlib

/-!
Verification of the TileDB write path (Writer) and FragmentInfo against their
specification.  The Writer implementation is not part of the sources at hand
(only its header `src/tiledb/sm/query/writer.h` is), so the Writer-side
operations are modelled from the specification; `FragmentInfo` is embedded
directly from `src/tiledb/sm/fragment/fragment_info.cc`.
-/

namespace TileDB

/-! ## Global-order tile builder (Writer, global mode)

Modelled from the spec: `prepare_full_tiles` cuts the pending cells into
tiles of exactly `tile_capacity` cells, emitting only whole tiles and
carrying the remainder in `GlobalWriteState.last_tiles`; `finalize` flushes
the residual tile regardless of fullness. -/

/-- Modelled from the spec: the tile-cutting core of `prepare_full_tiles`
(writer.h:833-848, implementation not in the sources).  Given capacity `c`
and pending cells `xs`, returns the list of full tiles (each of exactly `c`
cells) and the remaining partial tile. -/
def emitFull (c : Nat) (xs : List α) : List (List α) × List α :=
  if h : c = 0 ∨ xs.length < c then ([], xs)
  else
    let p := emitFull c (xs.drop c)
    (xs.take c :: p.1, p.2)
termination_by xs.length
decreasing_by
  simp only [not_or, Nat.not_lt] at h
  simp only [List.length_drop]
  omega

/-- Modelled from the spec: `Writer::GlobalWriteState` (writer.h:67-89),
restricted to one attribute: the carried partial tile and the tiles already
emitted to storage (tile files are appended in emit order). -/
structure GWState (α : Type) where
  tiles : List (List α)
  last : List α
deriving DecidableEq, Repr

/-- Modelled from the spec: the state at `init_global_write_state`. -/
def GWState.start : GWState α := ⟨[], []⟩

/-- Modelled from the spec: one global-order `write()` submission
(`global_write`, writer.h:689): prepend the carried partial tile, emit only
full tiles, store the remainder back into the state. -/
def globalWriteSubmit (c : Nat) (st : GWState α) (cells : List α) : GWState α :=
  let p := emitFull c (st.last ++ cells)
  ⟨st.tiles ++ p.1, p.2⟩

/-- Modelled from the spec: `finalize_global_write_state`
(writer.h:682-698): flush the residual last tile regardless of fullness.
The result is the full sequence of tiles of the fragment, which determines
the tile files, offsets and footer contents (up to uuid and timestamps). -/
def finalizeGW (st : GWState α) : List (List α) :=
  st.tiles ++ [st.last]

/-- Modelled from the spec: a whole global-order write session: K successive
`write()` submissions followed by `finalize()`. -/
def globalWriteSession (c : Nat) (subs : List (List α)) : List (List α) :=
  finalizeGW (subs.foldl (globalWriteSubmit c) GWState.start)

theorem emitFull_stop (c : Nat) (xs : List α) (h : c = 0 ∨ xs.length < c) :
    emitFull c xs = ([], xs) := by
  rw [emitFull]
  simp [h]

theorem emitFull_step (c : Nat) (xs : List α) (h0 : c ≠ 0) (hlen : c ≤ xs.length) :
    emitFull c xs =
      (xs.take c :: (emitFull c (xs.drop c)).1, (emitFull c (xs.drop c)).2) := by
  have hcond : ¬(c = 0 ∨ xs.length < c) := by
    simp only [not_or, Nat.not_lt]
    exact ⟨h0, hlen⟩
  rw [emitFull, dif_neg hcond]

theorem emitFull_nil (c : Nat) : emitFull c ([] : List α) = ([], []) := by
  apply emitFull_stop
  rcases Nat.eq_zero_or_pos c with h | h
  · exact Or.inl h
  · exact Or.inr (by simpa using h)

theorem emitFull_flatten (c : Nat) (xs : List α) :
    (emitFull c xs).1.flatten ++ (emitFull c xs).2 = xs := by
  suffices H : ∀ n (xs : List α), xs.length = n →
      (emitFull c xs).1.flatten ++ (emitFull c xs).2 = xs from H _ xs rfl
  intro n
  induction n using Nat.strong_induction_on with
  | _ n ih =>
    intro xs hn
    by_cases h : c = 0 ∨ xs.length < c
    · simp [emitFull_stop c xs h]
    · simp only [not_or, Nat.not_lt] at h
      rw [emitFull_step c xs h.1 h.2]
      have hlen : (xs.drop c).length < n := by
        simp only [List.length_drop]
        omega
      simp only [List.flatten_cons, List.append_assoc]
      rw [ih _ hlen _ rfl, List.take_append_drop]

theorem emitFull_tile_length (c : Nat) (xs : List α) :
    ∀ t ∈ (emitFull c xs).1, t.length = c := by
  suffices H : ∀ n (xs : List α), xs.length = n →
      ∀ t ∈ (emitFull c xs).1, t.length = c from H _ xs rfl
  intro n
  induction n using Nat.strong_induction_on with
  | _ n ih =>
    intro xs hn
    by_cases h : c = 0 ∨ xs.length < c
    · simp [emitFull_stop c xs h]
    · simp only [not_or, Nat.not_lt] at h
      rw [emitFull_step c xs h.1 h.2]
      intro t ht
      rcases List.mem_cons.mp ht with rfl | ht
      · simp [List.length_take, Nat.min_eq_left h.2]
      · have hlen : (xs.drop c).length < n := by
          simp only [List.length_drop]
          omega
        exact ih _ hlen _ rfl t ht

theorem emitFull_rem_lt (c : Nat) (hc : 0 < c) (xs : List α) :
    (emitFull c xs).2.length < c := by
  suffices H : ∀ n (xs : List α), xs.length = n →
      (emitFull c xs).2.length < c from H _ xs rfl
  intro n
  induction n using Nat.strong_induction_on with
  | _ n ih =>
    intro xs hn
    by_cases h : c = 0 ∨ xs.length < c
    · rcases h with h | h
      · omega
      · rw [emitFull_stop c xs (Or.inr h)]
        exact h
    · simp only [not_or, Nat.not_lt] at h
      rw [emitFull_step c xs h.1 h.2]
      have hlen : (xs.drop c).length < n := by
        simp only [List.length_drop]
        omega
      exact ih _ hlen _ rfl

theorem emitFull_append (c : Nat) (xs ys : List α) :
    emitFull c (xs ++ ys) =
      ((emitFull c xs).1 ++ (emitFull c ((emitFull c xs).2 ++ ys)).1,
       (emitFull c ((emitFull c xs).2 ++ ys)).2) := by
  suffices H : ∀ n (xs : List α), xs.length = n →
      emitFull c (xs ++ ys) =
        ((emitFull c xs).1 ++ (emitFull c ((emitFull c xs).2 ++ ys)).1,
         (emitFull c ((emitFull c xs).2 ++ ys)).2) from H _ xs rfl
  intro n
  induction n using Nat.strong_induction_on with
  | _ n ih =>
    intro xs hn
    by_cases h : c = 0 ∨ xs.length < c
    · rw [emitFull_stop c xs h]
      simp
    · simp only [not_or, Nat.not_lt] at h
      have hxy : emitFull c (xs ++ ys) =
          ((xs ++ ys).take c :: (emitFull c ((xs ++ ys).drop c)).1,
           (emitFull c ((xs ++ ys).drop c)).2) := by
        apply emitFull_step c _ h.1
        simp only [List.length_append]
        omega
      have htake : (xs ++ ys).take c = xs.take c :=
        List.take_append_of_le_length h.2
      have hdrop : (xs ++ ys).drop c = xs.drop c ++ ys :=
        List.drop_append_of_le_length h.2
      have hlen : (xs.drop c).length < n := by
        simp only [List.length_drop]
        omega
      rw [hxy, htake, hdrop, ih _ hlen _ rfl, emitFull_step c xs h.1 h.2]
      simp

theorem globalWriteSubmit_append (c : Nat) (st : GWState α) (a b : List α) :
    globalWriteSubmit c (globalWriteSubmit c st a) b =
      globalWriteSubmit c st (a ++ b) := by
  simp only [globalWriteSubmit]
  rw [← List.append_assoc, emitFull_append c (st.last ++ a) b]
  simp

theorem globalWriteSubmit_foldl (c : Nat) :
    ∀ (subs : List (List α)) (s : List α) (st : GWState α),
      (s :: subs).foldl (globalWriteSubmit c) st =
        globalWriteSubmit c st (s :: subs).flatten := by
  intro subs
  induction subs with
  | nil => intro s st; simp [List.foldl]
  | cons s2 rest ih =>
    intro s st
    have : (s :: s2 :: rest).foldl (globalWriteSubmit c) st =
        (s2 :: rest).foldl (globalWriteSubmit c) (globalWriteSubmit c st s) := rfl
    rw [this, ih, globalWriteSubmit_append]
    simp

/-! ## Coordinate sorting and duplicate detection (Writer, sparse mode)

Modelled from the spec: `sort_coords` computes `cell_pos`, the stable sort
of `[0, cells)` by the global cell order (ties broken by original input
index); `compute_coord_dups` marks all-but-first occurrences of equal
coordinates as duplicates, which are skipped during tile preparation.
Coordinates are abstracted by their global-order rank `key i` of input cell
`i`; two cells are duplicates exactly when their ranks coincide. -/

/-- Modelled from the spec: the comparator of `sort_coords`: global order on
coordinates, ties broken by the original input index (stable sort). -/
def keyLe (key : Nat → Nat) (a b : Nat) : Bool :=
  decide (key a < key b ∨ (key a = key b ∧ a ≤ b))

/-- Modelled from the spec: `sort_coords` (writer.h:991): the sorted
positions `cell_pos` of the `n` input cells. -/
def cellPos (n : Nat) (key : Nat → Nat) : List Nat :=
  (List.range n).mergeSort (keyLe key)

/-- Modelled from the spec: `compute_coord_dups` (writer.h:587-602): walk the
sorted positions and mark a position as duplicate when its coordinates equal
those of the preceding sorted position. -/
def computeCoordDups (key : Nat → Nat) (cp : List Nat) : List Nat :=
  (cp.zip cp.tail).filterMap fun p => if key p.1 = key p.2 then some p.2 else none

theorem keyLe_trans (key : Nat → Nat) (a b c : Nat)
    (h1 : keyLe key a b) (h2 : keyLe key b c) : keyLe key a c := by
  simp only [keyLe, decide_eq_true_eq] at *
  omega

theorem keyLe_total (key : Nat → Nat) (a b : Nat) :
    keyLe key a b || keyLe key b a := by
  simp only [keyLe, Bool.or_eq_true, decide_eq_true_eq]
  omega

theorem cellPos_perm (n : Nat) (key : Nat → Nat) :
    (cellPos n key).Perm (List.range n) :=
  List.mergeSort_perm (List.range n) (keyLe key)

theorem cellPos_nodup (n : Nat) (key : Nat → Nat) : (cellPos n key).Nodup :=
  ((cellPos_perm n key).nodup_iff).mpr (List.nodup_range n)

theorem cellPos_mem (n : Nat) (key : Nat → Nat) (a : Nat) :
    a ∈ cellPos n key ↔ a < n := by
  rw [(cellPos_perm n key).mem_iff, List.mem_range]

theorem cellPos_sorted (n : Nat) (key : Nat → Nat) :
    (cellPos n key).Pairwise (fun a b => keyLe key a b) :=
  List.sorted_mergeSort (keyLe_trans key) (keyLe_total key) (List.range n)

theorem mem_computeCoordDups (key : Nat → Nat) (cp : List Nat) (b : Nat) :
    b ∈ computeCoordDups key cp ↔
      ∃ a i, cp[i]? = some a ∧ cp[i + 1]? = some b ∧ key a = key b := by
  simp only [computeCoordDups, List.mem_filterMap]
  constructor
  · rintro ⟨p, hp, hfp⟩
    by_cases hk : key p.1 = key p.2
    · simp only [hk, if_true, Option.some_inj] at hfp
      rcases List.mem_iff_getElem?.mp hp with ⟨i, hi⟩
      rcases List.getElem?_zip_eq_some.mp hi with ⟨h1, h2⟩
      rw [List.getElem?_tail] at h2
      exact ⟨p.1, i, h1, hfp ▸ h2, hfp ▸ hk⟩
    · simp [hk] at hfp
  · rintro ⟨a, i, h1, h2, hk⟩
    refine ⟨(a, b), ?_, by simp [hk]⟩
    apply List.mem_iff_getElem?.mpr
    refine ⟨i, List.getElem?_zip_eq_some.mpr ⟨h1, ?_⟩⟩
    rw [List.getElem?_tail]
    exact h2

theorem computeCoordDups_cellPos_iff (n : Nat) (key : Nat → Nat) (b : Nat) :
    b ∈ computeCoordDups key (cellPos n key) ↔
      b < n ∧ ∃ a, a < b ∧ key a = key b := by
  have hpw := (List.pairwise_iff_getElem).mp (cellPos_sorted n key)
  have hnd := cellPos_nodup n key
  rw [mem_computeCoordDups]
  constructor
  · rintro ⟨a, i, h1, h2, hk⟩
    rcases List.getElem?_eq_some_iff.mp h1 with ⟨hi, ha⟩
    rcases List.getElem?_eq_some_iff.mp h2 with ⟨hi1, hb⟩
    have hle : keyLe key a b := by
      have := hpw i (i + 1) hi hi1 (Nat.lt_succ_self i)
      rwa [ha, hb] at this
    have hne : a ≠ b := by
      intro hab
      have : i = i + 1 := (hnd.getElem_inj_iff).mp (by rw [ha, hb, hab])
      omega
    have hab : a < b := by
      simp only [keyLe, decide_eq_true_eq] at hle
      omega
    have hbn : b < n := by
      rw [← cellPos_mem n key]
      exact hb ▸ List.getElem_mem hi1
    exact ⟨hbn, a, hab, hk⟩
  · rintro ⟨hbn, a, hab, hk⟩
    have han : a < n := Nat.lt_trans hab hbn
    rcases List.mem_iff_getElem.mp ((cellPos_mem n key a).mpr han) with ⟨pa, hpa, ha⟩
    rcases List.mem_iff_getElem.mp ((cellPos_mem n key b).mpr hbn) with ⟨pb, hpb, hb⟩
    have hpapb : pa < pb := by
      rcases Nat.lt_trichotomy pa pb with h | h | h
      · exact h
      · exfalso
        subst h
        have : a = b := ha.symm.trans hb
        omega
      · exfalso
        have hle := hpw pb pa hpb hpa h
        rw [ha, hb] at hle
        simp only [keyLe, decide_eq_true_eq] at hle
        omega
    have hpb1 : 1 ≤ pb := by omega
    have hpc : pb - 1 < (cellPos n key).length := by omega
    have hkc : key ((cellPos n key)[pb - 1]) = key b := by
      rcases Nat.eq_or_lt_of_le (Nat.le_sub_one_of_lt hpapb) with h | h
      · subst h
        rw [ha, hk]
      · have h1 := hpw pa (pb - 1) hpa hpc h
        have h2 := hpw (pb - 1) pb hpc hpb (by omega)
        rw [ha] at h1
        rw [hb] at h2
        simp only [keyLe, decide_eq_true_eq] at h1 h2
        omega
    refine ⟨(cellPos n key)[pb - 1], pb - 1, ?_, ?_, hkc⟩
    · exact List.getElem?_eq_some_iff.mpr ⟨hpc, rfl⟩
    · have : pb - 1 + 1 = pb := by omega
      rw [this]
      exact List.getElem?_eq_some_iff.mpr ⟨hpb, hb⟩

/-! ## Out-of-bounds check, durability and cleanup (Writer) -/

/-- Error kinds surfaced by the Writer (spec section 7). -/
inductive WriteErr where
  | outOfBounds
  | duplicate
  | storage
deriving DecidableEq

/-- Modelled from the spec: one cell passes the OOB check when each
dimension value lies in the closed domain interval (writer.h:535-541). -/
def inDomain (dom : List (Int × Int)) (cell : List Int) : Bool :=
  (cell.zip dom).all fun p => decide (p.2.1 ≤ p.1 ∧ p.1 ≤ p.2.2)

/-- Modelled from the spec: `check_coord_oob` (writer.h:535-541,
implementation not in the sources): fail with `OutOfBounds` on the first
violating cell; skipped entirely when `check_coord_oob_` is false. -/
def checkCoordOob (flag : Bool) (dom : List (Int × Int))
    (cells : List (List Int)) : Except WriteErr Unit :=
  if flag then
    if cells.all (inDomain dom) then Except.ok () else Except.error .outOfBounds
  else Except.ok ()

/-- A path `f` lies under the directory/prefix `uri`. -/
def isUnder (uri f : String) : Bool :=
  uri.toList.isPrefixOf f.toList

/-- Modelled from the spec: `clean_up` (writer.h:1181-1185): recursively
remove everything under the fragment uri; best-effort, total (absence of the
fragment is not an error). -/
def cleanUp (uri : String) (files : List String) : List String :=
  files.filter fun f => !(isUnder uri f)

/-- Modelled from the spec: the files a successful sparse write creates
under the fragment uri (per-name tile files, footer, commit marker). -/
def fragmentFiles (uri : String) (names : List String) : List String :=
  (names.map fun nm => uri ++ "/" ++ nm ++ ".tdb")
    ++ [uri ++ "/__fragment_metadata.tdb", uri ++ "/__ok"]

/-- Modelled from the spec: `unordered_write` (writer.h:1006) restricted to
what decides the OOB claim: the coordinate OOB check runs before any storage
mutation; on failure the fragment uri is cleaned up and the error returned;
on success the fragment files are written. -/
def unorderedWrite (checkOob : Bool) (dom : List (Int × Int))
    (cells : List (List Int)) (uri : String) (names : List String)
    (files0 : List String) : Except WriteErr Unit × List String :=
  match checkCoordOob checkOob dom cells with
  | .error e => (.error e, cleanUp uri files0)
  | .ok _ => (.ok (), files0 ++ fragmentFiles uri names)

/-- Modelled from the spec: one storage-side step of a global write
(writer.h:689, 778-782, 1181-1185): on success the new tile files are
appended; on a storage error the writer nukes the global write state and
cleans up the fragment prefix.  The state is (files, global-state-present). -/
def globalWriteStep (files : List String) (hasGW : Bool) (uri : String)
    (newFiles : List String) (storageOk : Bool) :
    Except WriteErr Unit × List String × Bool :=
  if storageOk then (.ok (), files ++ newFiles, hasGW)
  else (.error .storage, cleanUp uri files, false)

theorem cleanUp_no_uri_file (uri : String) (files : List String) :
    ∀ f ∈ cleanUp uri files, isUnder uri f = false := by
  intro f hf
  rcases List.mem_filter.mp hf with ⟨_, h⟩
  simpa using h

/-! ## Per-tile MBRs (Writer, fragment metadata accumulator) -/

/-- Coordinate of a cell along dimension `d`. -/
def coordAt (cell : List Int) (d : Nat) : Int :=
  cell.getD d 0

/-- Modelled from the spec: lower MBR bound of a tile along dimension `d`:
minimum of the tile's coordinate values (writer.h:620-630). -/
def mbrLo (tile : List (List Int)) (d : Nat) : Int :=
  match tile with
  | [] => 0
  | c :: rest => rest.foldl (fun m cell => min m (coordAt cell d)) (coordAt c d)

/-- Modelled from the spec: upper MBR bound of a tile along dimension `d`:
maximum of the tile's coordinate values (writer.h:620-630). -/
def mbrHi (tile : List (List Int)) (d : Nat) : Int :=
  match tile with
  | [] => 0
  | c :: rest => rest.foldl (fun m cell => max m (coordAt cell d)) (coordAt c d)

/-- Modelled from the spec: `compute_coords_metadata` (writer.h:620-630):
per-tile MBR, one interval per dimension. -/
def computeCoordsMetadata (tiles : List (List (List Int))) (dimNum : Nat) :
    List (List (Int × Int)) :=
  tiles.map fun t => (List.range dimNum).map fun d => (mbrLo t d, mbrHi t d)

/-- Modelled from the spec: the fragment metadata accumulator: each write
appends the MBRs of its tiles to the fragment metadata (writer.h:620-630,
spec section 4.5). -/
def fragMetaAcc (writes : List (List (List (List Int)))) (dimNum : Nat) :
    List (List (Int × Int)) :=
  writes.foldl (fun acc ts => acc ++ computeCoordsMetadata ts dimNum) []

theorem foldl_min_le_init (l : List Int) (a : Int) :
    l.foldl min a ≤ a := by
  induction l generalizing a with
  | nil => exact Int.le_refl a
  | cons x xs ih =>
    simp only [List.foldl_cons]
    exact Int.le_trans (ih (min a x)) (Int.min_le_left a x)

theorem foldl_min_le (l : List Int) (a x : Int) (hx : x ∈ l) :
    l.foldl min a ≤ x := by
  induction l generalizing a with
  | nil => cases hx
  | cons y ys ih =>
    simp only [List.foldl_cons]
    rcases List.mem_cons.mp hx with rfl | hx
    · exact Int.le_trans (foldl_min_le_init ys (min a x)) (Int.min_le_right a x)
    · exact ih (min a y) hx

theorem le_foldl_max_init (l : List Int) (a : Int) :
    a ≤ l.foldl max a := by
  induction l generalizing a with
  | nil => exact Int.le_refl a
  | cons x xs ih =>
    simp only [List.foldl_cons]
    exact Int.le_trans (Int.le_max_left a x) (ih (max a x))

theorem le_foldl_max (l : List Int) (a x : Int) (hx : x ∈ l) :
    x ≤ l.foldl max a := by
  induction l generalizing a with
  | nil => cases hx
  | cons y ys ih =>
    simp only [List.foldl_cons]
    rcases List.mem_cons.mp hx with rfl | hx
    · exact Int.le_trans (Int.le_max_right a x) (le_foldl_max_init ys (max a x))
    · exact ih (max a y) hx

theorem mbrLo_le (tile : List (List Int)) (d : Nat) (cell : List Int)
    (hc : cell ∈ tile) : mbrLo tile d ≤ coordAt cell d := by
  match tile with
  | [] => cases hc
  | c :: rest =>
    simp only [mbrLo]
    rw [show (fun (m : Int) (cell : List Int) => min m (coordAt cell d)) =
      (fun (x : Int) (y : List Int) => min x ((coordAt · d) y)) from rfl,
      ← List.foldl_map (coordAt · d) min]
    rcases List.mem_cons.mp hc with rfl | hc
    · exact foldl_min_le_init _ _
    · exact foldl_min_le _ _ _ (List.mem_map_of_mem (coordAt · d) hc)

theorem le_mbrHi (tile : List (List Int)) (d : Nat) (cell : List Int)
    (hc : cell ∈ tile) : coordAt cell d ≤ mbrHi tile d := by
  match tile with
  | [] => cases hc
  | c :: rest =>
    simp only [mbrHi]
    rw [show (fun (m : Int) (cell : List Int) => max m (coordAt cell d)) =
      (fun (x : Int) (y : List Int) => max x ((coordAt · d) y)) from rfl,
      ← List.foldl_map (coordAt · d) max]
    rcases List.mem_cons.mp hc with rfl | hc
    · exact le_foldl_max_init _ _
    · exact le_foldl_max _ _ _ (List.mem_map_of_mem (coordAt · d) hc)

theorem fragMetaAcc_eq_flatten (writes : List (List (List (List Int))))
    (dimNum : Nat) :
    fragMetaAcc writes dimNum =
      (writes.map fun ts => computeCoordsMetadata ts dimNum).flatten := by
  suffices H : ∀ (ws : List (List (List (List Int)))) (acc : List (List (Int × Int))),
      ws.foldl (fun a ts => a ++ computeCoordsMetadata ts dimNum) acc =
        acc ++ (ws.map fun ts => computeCoordsMetadata ts dimNum).flatten by
    simpa using H writes []
  intro ws
  induction ws with
  | nil => intro acc; simp
  | cons w rest ih =>
    intro acc
    simp only [List.foldl_cons, List.map_cons, List.flatten_cons, ih,
      List.append_assoc]

/-! ## Fragment naming (Writer) -/

/-- Decimal digits of `n`, most significant first. -/
def decDigits (n : Nat) : List Nat :=
  if h : n < 10 then [n]
  else decDigits (n / 10) ++ [n % 10]
termination_by n
decreasing_by
  simp only [Nat.not_lt] at h
  omega

/-- Render a natural number in decimal. -/
def decString (n : Nat) : String :=
  ⟨(decDigits n).map fun d => Char.ofNat (48 + d)⟩

/-- Value of a most-significant-first decimal digit list. -/
def digitsToNat (ds : List Nat) : Nat :=
  ds.foldl (fun a d => 10 * a + d) 0

/-- One lowercase hexadecimal digit character. -/
def hexDigitChar (d : Nat) : Char :=
  if d < 10 then Char.ofNat (48 + d) else Char.ofNat (87 + d)

/-- A 128-bit uuid value rendered as exactly 32 lowercase hex characters,
no dashes (most significant nibble first). -/
def toHex32 (u : Nat) : String :=
  ⟨(List.range 32).map fun i => hexDigitChar (u / 16 ^ (31 - i) % 16)⟩

/-- Modelled from the spec: `new_fragment_name` (writer.h:762-776,
implementation not in the sources): produces
`__<t>_<t>_<uuid32hex>_<fmt_ver>`; a zero input timestamp is replaced by
the current time `now`. -/
def newFragmentName (timestamp now : Nat) (uuid : Nat) (version : Nat) :
    String :=
  let t := if timestamp = 0 then now else timestamp
  "__" ++ decString t ++ "_" ++ decString t ++ "_" ++ toHex32 uuid
    ++ "_" ++ decString version

theorem digitsToNat_decDigits (n : Nat) : digitsToNat (decDigits n) = n := by
  suffices H : ∀ m n, n = m → digitsToNat (decDigits n) = n from H n n rfl
  intro m
  induction m using Nat.strong_induction_on with
  | _ m ih =>
    intro n hn
    by_cases h : n < 10
    · rw [decDigits, dif_pos h]
      simp [digitsToNat]
    · rw [decDigits, dif_neg h]
      have hrec : digitsToNat (decDigits (n / 10)) = n / 10 := by
        apply ih (n / 10) _ _ rfl
        omega
      simp only [digitsToNat, List.foldl_append, List.foldl_cons, List.foldl_nil]
      simp only [digitsToNat] at hrec
      rw [hrec]
      omega

theorem decDigits_lt_ten (n : Nat) : ∀ d ∈ decDigits n, d < 10 := by
  suffices H : ∀ m n, n = m → ∀ d ∈ decDigits n, d < 10 from H n n rfl
  intro m
  induction m using Nat.strong_induction_on with
  | _ m ih =>
    intro n hn d hd
    by_cases h : n < 10
    · rw [decDigits, dif_pos h] at hd
      simp only [List.mem_singleton] at hd
      omega
    · rw [decDigits, dif_neg h] at hd
      rcases List.mem_append.mp hd with hd | hd
      · exact ih (n / 10) (by omega) _ rfl d hd
      · simp only [List.mem_singleton] at hd
        omega

theorem toHex32_length (u : Nat) : (toHex32 u).length = 32 := by
  simp [toHex32, String.length]

theorem hexDigitChar_mem (d : Nat) (hd : d < 16) :
    hexDigitChar d ∈ "0123456789abcdef".toList := by
  have : ∀ x, x < 16 → hexDigitChar x ∈ "0123456789abcdef".toList := by decide
  exact this d hd

theorem toHex32_chars (u : Nat) :
    ∀ ch ∈ (toHex32 u).toList, ch ∈ "0123456789abcdef".toList := by
  intro ch hch
  simp only [toHex32, String.toList] at hch
  rcases List.mem_map.mp hch with ⟨i, _, rfl⟩
  exact hexDigitChar_mem _ (Nat.mod_lt _ (by omega))

theorem decString_chars (n : Nat) :
    ∀ ch ∈ (decString n).toList, ('0' : Char) ≤ ch ∧ ch ≤ ('9' : Char) := by
  intro ch hch
  simp only [decString, String.toList] at hch
  rcases List.mem_map.mp hch with ⟨d, hd, rfl⟩
  have h10 := decDigits_lt_ten n d hd
  have : ∀ x, x < 10 →
      ('0' : Char) ≤ Char.ofNat (48 + x) ∧ Char.ofNat (48 + x) ≤ ('9' : Char) := by
    decide
  exact this d h10

/-! ## FragmentInfo, embedded from `src/tiledb/sm/fragment/fragment_info.cc`

Output pointers of the C++ API are modelled by a nullness flag per pointer
plus the returned value: a function returns `Except FIErr v` where `v` is
what the C++ writes through the pointer; an error return writes nothing and
leaves the object unchanged (the embedded functions are pure and only
return the `Except`). -/

/-- Error statuses of `FragmentInfoError`, by triggering condition. -/
inductive FIErr where
  | nullArg
  | invalidFragmentIdx
  | invalidDimIdx
  | dimVarSized
  | dimFixedSized
  | invalidDimName
  | arrayDoesNotExist
  | storage
deriving DecidableEq

/-- One entry of a fragment's non-empty domain (class `Range`): fixed-sized
ranges carry `data`; var-sized ranges carry `startData`/`endData`. -/
structure RangeT where
  var_size : Bool
  data : List Nat
  startData : List Nat
  endData : List Nat
deriving DecidableEq

/-- The per-fragment record `SingleFragmentInfo`, restricted to the fields
fragment_info.cc reads. -/
structure SingleFragmentInfo where
  uri : String
  sparse : Bool
  timestamp_range : Nat × Nat
  cell_num : Nat
  fragment_size : Nat
  has_consolidated_footer : Bool
  non_empty_domain : List RangeT
  format_version : Nat
deriving DecidableEq

/-- The `FragmentInfo` object (fragment_info.cc), restricted to the fields
its member functions read. -/
structure FragmentInfo where
  array_uri : String
  dim_names : List String
  fragments : List SingleFragmentInfo
  to_vacuum : List String
  unconsolidated_metadata_num : Nat
deriving DecidableEq

/-- Embeds `FragmentInfo::get_dense` (fragment_info.cc:123-135). -/
def FragmentInfo.get_dense (fi : FragmentInfo) (fid : Nat) (denseNull : Bool) :
    Except FIErr Int :=
  if denseNull then .error .nullArg
  else if h : fi.fragments.length ≤ fid then .error .invalidFragmentIdx
  else .ok (if (fi.fragments.get ⟨fid, Nat.lt_of_not_le h⟩).sparse then 0 else 1)

/-- Embeds `FragmentInfo::get_sparse` (fragment_info.cc:137-149). -/
def FragmentInfo.get_sparse (fi : FragmentInfo) (fid : Nat) (sparseNull : Bool) :
    Except FIErr Int :=
  if sparseNull then .error .nullArg
  else if h : fi.fragments.length ≤ fid then .error .invalidFragmentIdx
  else .ok (if (fi.fragments.get ⟨fid, Nat.lt_of_not_le h⟩).sparse then 1 else 0)

/-- Embeds `FragmentInfo::fragment_num` (fragment_info.cc:151-153). -/
def FragmentInfo.fragment_num (fi : FragmentInfo) : Nat :=
  fi.fragments.length % 2 ^ 32

/-- Embeds `FragmentInfo::get_cell_num` (fragment_info.cc:155-167). -/
def FragmentInfo.get_cell_num (fi : FragmentInfo) (fid : Nat) (outNull : Bool) :
    Except FIErr Nat :=
  if outNull then .error .nullArg
  else if h : fi.fragments.length ≤ fid then .error .invalidFragmentIdx
  else .ok (fi.fragments.get ⟨fid, Nat.lt_of_not_le h⟩).cell_num

/-- Embeds `FragmentInfo::get_fragment_size` (fragment_info.cc:169-181). -/
def FragmentInfo.get_fragment_size (fi : FragmentInfo) (fid : Nat)
    (outNull : Bool) : Except FIErr Nat :=
  if outNull then .error .nullArg
  else if h : fi.fragments.length ≤ fid then .error .invalidFragmentIdx
  else .ok (fi.fragments.get ⟨fid, Nat.lt_of_not_le h⟩).fragment_size

/-- Embeds `FragmentInfo::get_fragment_uri` (fragment_info.cc:183-195). -/
def FragmentInfo.get_fragment_uri (fi : FragmentInfo) (fid : Nat)
    (outNull : Bool) : Except FIErr String :=
  if outNull then .error .nullArg
  else if h : fi.fragments.length ≤ fid then .error .invalidFragmentIdx
  else .ok (fi.fragments.get ⟨fid, Nat.lt_of_not_le h⟩).uri

/-- Embeds `FragmentInfo::get_timestamp_range` (fragment_info.cc:211-230). -/
def FragmentInfo.get_timestamp_range (fi : FragmentInfo) (fid : Nat)
    (startNull endNull : Bool) : Except FIErr (Nat × Nat) :=
  if startNull then .error .nullArg
  else if endNull then .error .nullArg
  else if h : fi.fragments.length ≤ fid then .error .invalidFragmentIdx
  else .ok (fi.fragments.get ⟨fid, Nat.lt_of_not_le h⟩).timestamp_range

/-- Embeds `FragmentInfo::get_non_empty_domain` by index (fragment_info.cc:232-257). -/
def FragmentInfo.get_non_empty_domain (fi : FragmentInfo) (fid did : Nat)
    (domNull : Bool) : Except FIErr (List Nat) :=
  if domNull then .error .nullArg
  else if h : fi.fragments.length ≤ fid then .error .invalidFragmentIdx
  else
    let ned := (fi.fragments.get ⟨fid, Nat.lt_of_not_le h⟩).non_empty_domain
    if h2 : ned.length ≤ did then .error .invalidDimIdx
    else
      let r := ned.get ⟨did, Nat.lt_of_not_le h2⟩
      if r.var_size then .error .dimVarSized else .ok r.data

/-- The dimension-name lookup loop shared by the name-based accessors
(fragment_info.cc:266-270): scan `dim_names_` from index 0, stopping at the
first match; yields `dim_names_.size()` when the name is absent. -/
def FragmentInfo.findDimIdx (names : List String) (dimName : String) : Nat :=
  names.findIdx fun s => dimName == s

/-- Embeds `FragmentInfo::get_non_empty_domain` by name (fragment_info.cc:259-281). -/
def FragmentInfo.get_non_empty_domain_by_name (fi : FragmentInfo) (fid : Nat)
    (dimNameNull : Bool) (dimName : String) (domNull : Bool) :
    Except FIErr (List Nat) :=
  if dimNameNull then .error .nullArg
  else
    let did := FragmentInfo.findDimIdx fi.dim_names dimName
    if did = fi.dim_names.length then .error .invalidDimName
    else fi.get_non_empty_domain fid did domNull

/-- Embeds `FragmentInfo::get_non_empty_domain_var_size` by index
(fragment_info.cc:283-317). -/
def FragmentInfo.get_non_empty_domain_var_size (fi : FragmentInfo)
    (fid did : Nat) (startNull endNull : Bool) : Except FIErr (Nat × Nat) :=
  if startNull then .error .nullArg
  else if endNull then .error .nullArg
  else if h : fi.fragments.length ≤ fid then .error .invalidFragmentIdx
  else
    let ned := (fi.fragments.get ⟨fid, Nat.lt_of_not_le h⟩).non_empty_domain
    if h2 : ned.length ≤ did then .error .invalidDimIdx
    else
      let r := ned.get ⟨did, Nat.lt_of_not_le h2⟩
      if !r.var_size then .error .dimFixedSized
      else .ok (r.startData.length, r.endData.length)

/-- Embeds `FragmentInfo::get_non_empty_domain_var_size` by name
(fragment_info.cc:319-346). -/
def FragmentInfo.get_non_empty_domain_var_size_by_name (fi : FragmentInfo)
    (fid : Nat) (dimNameNull : Bool) (dimName : String)
    (startNull endNull : Bool) : Except FIErr (Nat × Nat) :=
  if dimNameNull then .error .nullArg
  else
    let did := FragmentInfo.findDimIdx fi.dim_names dimName
    if did = fi.dim_names.length then .error .invalidDimName
    else fi.get_non_empty_domain_var_size fid did startNull endNull

/-- Embeds `FragmentInfo::get_non_empty_domain_var` by index
(fragment_info.cc:348-380). -/
def FragmentInfo.get_non_empty_domain_var (fi : FragmentInfo) (fid did : Nat)
    (startNull endNull : Bool) : Except FIErr (List Nat × List Nat) :=
  if startNull then .error .nullArg
  else if endNull then .error .nullArg
  else if h : fi.fragments.length ≤ fid then .error .invalidFragmentIdx
  else
    let ned := (fi.fragments.get ⟨fid, Nat.lt_of_not_le h⟩).non_empty_domain
    if h2 : ned.length ≤ did then .error .invalidDimIdx
    else
      let r := ned.get ⟨did, Nat.lt_of_not_le h2⟩
      if !r.var_size then .error .dimFixedSized
      else .ok (r.startData, r.endData)

/-- Embeds `FragmentInfo::get_non_empty_domain_var` by name
(fragment_info.cc:382-406). -/
def FragmentInfo.get_non_empty_domain_var_by_name (fi : FragmentInfo)
    (fid : Nat) (dimNameNull : Bool) (dimName : String)
    (startNull endNull : Bool) : Except FIErr (List Nat × List Nat) :=
  if dimNameNull then .error .nullArg
  else
    let did := FragmentInfo.findDimIdx fi.dim_names dimName
    if did = fi.dim_names.length then .error .invalidDimName
    else fi.get_non_empty_domain_var fid did startNull endNull

/-- Embeds `FragmentInfo::get_version` (fragment_info.cc:408-420). -/
def FragmentInfo.get_version (fi : FragmentInfo) (fid : Nat) (outNull : Bool) :
    Except FIErr Nat :=
  if outNull then .error .nullArg
  else if h : fi.fragments.length ≤ fid then .error .invalidFragmentIdx
  else .ok (fi.fragments.get ⟨fid, Nat.lt_of_not_le h⟩).format_version

/-- Embeds `FragmentInfo::has_consolidated_metadata` (fragment_info.cc:422-437). -/
def FragmentInfo.has_consolidated_metadata (fi : FragmentInfo) (fid : Nat)
    (outNull : Bool) : Except FIErr Int :=
  if outNull then .error .nullArg
  else if h : fi.fragments.length ≤ fid then .error .invalidFragmentIdx
  else
    .ok (if (fi.fragments.get ⟨fid, Nat.lt_of_not_le h⟩).has_consolidated_footer
      then 1 else 0)

/-- Embeds `FragmentInfo::load` (fragment_info.cc:439-467).  The storage-side
effects (array existence check, open, `get_fragment_info`) are external
collaborators; `isArray` is their existence answer and `fetch` the object
state `get_fragment_info` produced.  After a successful fetch the method
recounts `unconsolidated_metadata_num_` as the number of fragments without a
consolidated footer (accumulated in a `uint32_t`). -/
def FragmentInfo.load (isArray : Bool) (fetch : Except FIErr FragmentInfo) :
    Except FIErr FragmentInfo :=
  if !isArray then .error .arrayDoesNotExist
  else
    match fetch with
    | .error e => .error e
    | .ok fetched =>
        .ok { fetched with
          unconsolidated_metadata_num :=
            (fetched.fragments.countP fun f => !f.has_consolidated_footer)
              % 2 ^ 32 }

/-- Embeds `FragmentInfo::unconsolidated_metadata_num` (fragment_info.cc:492-494). -/
def FragmentInfo.unconsolidated_metadata_num_fn (fi : FragmentInfo) : Nat :=
  fi.unconsolidated_metadata_num

/-- An `Except` result is an error. -/
def isErr (x : Except FIErr α) : Bool :=
  match x with
  | .error _ => true
  | .ok _ => false

/-! ## Claim theorems -/

/-- C1: Splitting a global-order input arbitrarily into K `write()`
submissions followed by `finalize()` produces exactly the same sequence of
emitted tiles — hence byte-identical tile files, offsets and footer contents
(up to uuid and timestamps) — as a single `write()` submission of the whole
input followed by `finalize()`. -/
theorem global_split_equivalence (c : Nat) (subs : List (List α)) :
    globalWriteSession c subs = globalWriteSession c [subs.flatten] := by
  cases subs with
  | nil =>
    simp [globalWriteSession, globalWriteSubmit, GWState.start, finalizeGW,
      emitFull_nil]
  | cons s rest =>
    have h1 := globalWriteSubmit_foldl c rest s (GWState.start (α := α))
    simp only [globalWriteSession]
    rw [h1]
    simp only [List.foldl_cons, List.foldl_nil]

/-- C2: With `check_coord_oob=true`, a sparse write containing a cell with
some dimension value outside the closed domain interval returns an
`OutOfBounds` error and afterwards no file exists under the fragment
prefix; with `check_coord_oob=false` the check is skipped entirely and
always passes. -/
theorem oob_rejected (dom : List (Int × Int)) (cells : List (List Int))
    (uri : String) (names : List String) (files0 : List String) :
    ((∃ cell ∈ cells, ∃ p ∈ cell.zip dom, p.1 < p.2.1 ∨ p.2.2 < p.1) →
      (unorderedWrite true dom cells uri names files0).1 =
        .error .outOfBounds ∧
      ∀ f ∈ (unorderedWrite true dom cells uri names files0).2,
        isUnder uri f = false) ∧
    checkCoordOob false dom cells = .ok () := by
  constructor
  · rintro ⟨cell, hcell, p, hp, hviol⟩
    have hbad : inDomain dom cell = false := by
      rw [inDomain, List.all_eq_false]
      refine ⟨p, hp, ?_⟩
      simp only [decide_eq_true_eq]
      omega
    have hall : cells.all (inDomain dom) = false := by
      rw [List.all_eq_false]
      exact ⟨cell, hcell, by simp [hbad]⟩
    have hchk : checkCoordOob true dom cells = .error .outOfBounds := by
      simp [checkCoordOob, hall]
    constructor
    · simp [unorderedWrite, hchk]
    · intro f hf
      simp only [unorderedWrite, hchk] at hf
      exact cleanUp_no_uri_file uri files0 f hf
  · rfl

theorem oob_rejected_witness :
    (unorderedWrite true [((0 : Int), 9), (0, 9)] [[10, 0]] "frag" ["a"]
      []).1 = .error .outOfBounds :=
  ((oob_rejected [((0 : Int), 9), (0, 9)] [[10, 0]] "frag" ["a"] []).1
    ⟨[10, 0], by decide, ((10 : Int), ((0 : Int), (9 : Int))), by decide,
      by decide⟩).1

/-- C3: With `dedup_coords=true`, the duplicate positions computed from the
stable sort of the input cells are exactly the all-but-first occurrences of
each coordinate (first in input order): a position `b` is a duplicate iff
some earlier input position carries equal coordinates, so the cell retained
for a duplicated coordinate is always the first occurrence in input order. -/
theorem dedup_first_occurrence (n : Nat) (key : Nat → Nat) (b : Nat) :
    (b ∈ computeCoordDups key (cellPos n key) ↔
      b < n ∧ ∃ a, a < b ∧ key a = key b) ∧
    (b < n ∧ b ∉ computeCoordDups key (cellPos n key) →
      ∀ a, a < b → key a ≠ key b) := by
  have hiff := computeCoordDups_cellPos_iff n key b
  refine ⟨hiff, ?_⟩
  rintro ⟨hbn, hnot⟩ a ha hk
  exact hnot (hiff.mpr ⟨hbn, a, ha, hk⟩)

theorem dedup_first_occurrence_witness :
    ∀ a, a < 2 → (fun i : Nat => i / 2) a ≠ (fun i : Nat => i / 2) 2 := by
  have hsorted : cellPos 4 (fun i : Nat => i / 2) = [0, 1, 2, 3] := by
    rw [cellPos, show List.range 4 = [0, 1, 2, 3] from rfl]
    exact List.mergeSort_of_sorted (by decide)
  refine (dedup_first_occurrence 4 (fun i : Nat => i / 2) 2).2 ⟨by decide, ?_⟩
  rw [hsorted]
  decide

/-- C4: In global-order mode each `write()` invocation first prepends the
partial tile carried in the state, emits only tiles of exactly
`tile_capacity` cells, and stores the (possibly empty) remainder back as
the last tile; the residual tile is emitted to storage only by `finalize`,
regardless of fullness. -/
theorem prepare_full_tiles_carry (c : Nat) (hc : 0 < c) (st : GWState α)
    (cells : List α) :
    (globalWriteSubmit c st cells).tiles =
      st.tiles ++ (emitFull c (st.last ++ cells)).1 ∧
    (globalWriteSubmit c st cells).last = (emitFull c (st.last ++ cells)).2 ∧
    (∀ t ∈ (emitFull c (st.last ++ cells)).1, t.length = c) ∧
    (emitFull c (st.last ++ cells)).2.length < c ∧
    (emitFull c (st.last ++ cells)).1.flatten ++
      (emitFull c (st.last ++ cells)).2 = st.last ++ cells ∧
    finalizeGW (globalWriteSubmit c st cells) =
      st.tiles ++ (emitFull c (st.last ++ cells)).1 ++
        [(emitFull c (st.last ++ cells)).2] := by
  refine ⟨rfl, rfl, emitFull_tile_length c _, emitFull_rem_lt c hc _,
    emitFull_flatten c _, ?_⟩
  simp [finalizeGW, globalWriteSubmit]

theorem prepare_full_tiles_carry_witness :
    (globalWriteSubmit 2 (⟨[[5, 6]], [7]⟩ : GWState Nat) [8, 9]).tiles =
      [[5, 6]] ++ (emitFull 2 ([7] ++ [8, 9])).1 :=
  (prepare_full_tiles_carry 2 (by decide) ⟨[[5, 6]], [7]⟩ [8, 9]).1

/-- C5: Every coordinate of every cell of tile `ti` lies within the MBR
interval that `compute_coords_metadata` records for that tile and
dimension, and the MBRs of each write are carried unchanged (as a
contiguous block) into the accumulated fragment metadata, so the invariant
is preserved by every subsequent write. -/
theorem mbr_encloses (writes : List (List (List (List Int))))
    (dimNum ti d : Nat) (w : List (List (List Int))) (cell : List Int)
    (hw : w ∈ writes) (hti : ti < w.length) (hc : cell ∈ w.getD ti [])
    (hd : d < dimNum) :
    (((computeCoordsMetadata w dimNum).getD ti []).getD d
        ((0 : Int), (0 : Int))).1 ≤ coordAt cell d ∧
    coordAt cell d ≤
      (((computeCoordsMetadata w dimNum).getD ti []).getD d
        ((0 : Int), (0 : Int))).2 ∧
    List.IsInfix (computeCoordsMetadata w dimNum) (fragMetaAcc writes dimNum) := by
  have hmeta : ((computeCoordsMetadata w dimNum).getD ti []).getD d
      ((0 : Int), (0 : Int)) = (mbrLo (w.getD ti []) d, mbrHi (w.getD ti []) d) := by
    have hd' : d < (List.range dimNum).length := by simpa using hd
    simp [computeCoordsMetadata, List.getD_eq_getElem?_getD,
      List.getElem?_map, List.getElem?_eq_getElem hti,
      List.getElem?_eq_getElem hd']
  rw [hmeta]
  refine ⟨mbrLo_le _ _ _ hc, le_mbrHi _ _ _ hc, ?_⟩
  rw [fragMetaAcc_eq_flatten]
  exact List.infix_of_mem_flatten
    (List.mem_map_of_mem (fun ts => computeCoordsMetadata ts dimNum) hw)

theorem mbr_encloses_witness :
    (((computeCoordsMetadata [[[1, 7], [3, 4]]] 2).getD 0 []).getD 0
        ((0 : Int), (0 : Int))).1 ≤ coordAt [1, 7] 0 :=
  (mbr_encloses [[[[1, 7], [3, 4]]]] 2 0 0 [[[1, 7], [3, 4]]] [1, 7]
    (by simp) (by decide) (by simp) (by decide)).1

/-- C6: A storage-side error during a global write returns a `Storage`
error, nukes the global write state, and cleans up the fragment prefix:
afterwards no file under the fragment uri remains.  `clean_up` is
best-effort and total: removing an already-absent prefix changes nothing
and is not an error (idempotence). -/
theorem storage_error_cleanup (files : List String) (hasGW : Bool)
    (uri : String) (newFiles : List String) :
    (globalWriteStep files hasGW uri newFiles false).1 = .error .storage ∧
    (globalWriteStep files hasGW uri newFiles false).2.2 = false ∧
    (∀ f ∈ (globalWriteStep files hasGW uri newFiles false).2.1,
      isUnder uri f = false) ∧
    cleanUp uri (cleanUp uri files) = cleanUp uri files := by
  refine ⟨rfl, rfl, ?_, ?_⟩
  · intro f hf
    simp only [globalWriteStep, if_neg (by simp : ¬(false = true))] at hf
    exact cleanUp_no_uri_file uri files f hf
  · simp [cleanUp, List.filter_filter]

theorem storage_error_cleanup_witness :
    isUnder "u/" "w/y.tdb" = false :=
  (storage_error_cleanup ["u/x.tdb", "w/y.tdb"] true "u/" []).2.2.1
    "w/y.tdb" (by decide)

/-- C7: Every generated fragment name has exactly the form
`__<t_first>_<t_last>_<uuid32hex>_<fmt_ver>` where both timestamps render
the same value `t` in decimal (parseable back to `t`), the uuid is exactly
32 lowercase hexadecimal characters without dashes, and the format version
is decimal; a zero input timestamp is replaced by the current time. -/
theorem fragment_name_format (timestamp now uuid version : Nat) :
    newFragmentName timestamp now uuid version =
      "__" ++ decString (if timestamp = 0 then now else timestamp) ++ "_" ++
      decString (if timestamp = 0 then now else timestamp) ++ "_" ++
      toHex32 uuid ++ "_" ++ decString version ∧
    (toHex32 uuid).length = 32 ∧
    (∀ ch ∈ (toHex32 uuid).toList, ch ∈ "0123456789abcdef".toList) ∧
    digitsToNat (decDigits (if timestamp = 0 then now else timestamp)) =
      (if timestamp = 0 then now else timestamp) ∧
    digitsToNat (decDigits version) = version ∧
    (∀ ch ∈ (decString version).toList,
      ('0' : Char) ≤ ch ∧ ch ≤ ('9' : Char)) :=
  ⟨rfl, toHex32_length uuid, toHex32_chars uuid, digitsToNat_decDigits _,
    digitsToNat_decDigits version, decString_chars version⟩

theorem fragment_name_format_witness :
    ('1' : Char) ∈ "0123456789abcdef".toList ∧
    (('0' : Char) ≤ '7' ∧ ('7' : Char) ≤ '9') := by
  have h := fragment_name_format 0 5 1 7
  have hdec : decDigits 7 = [7] := by
    rw [decDigits]
    simp
  refine ⟨h.2.2.1 '1' ?_, h.2.2.2.2.2 '7' ?_⟩
  · decide
  · rw [decString, hdec]
    decide

/-- C8: After every successful `FragmentInfo::load`, the value of
`unconsolidated_metadata_num()` equals the number of fragments in
`fragments()` without a consolidated footer. -/
theorem load_unconsolidated_count (fetched fi : FragmentInfo)
    (h : FragmentInfo.load true (.ok fetched) = .ok fi)
    (hlen : fetched.fragments.length < 2 ^ 32) :
    fi.unconsolidated_metadata_num_fn =
      fi.fragments.countP fun f => !f.has_consolidated_footer := by
  have h' : ({ fetched with
      unconsolidated_metadata_num :=
        (fetched.fragments.countP fun f => !f.has_consolidated_footer)
          % 2 ^ 32 } : FragmentInfo) = fi := by
    simpa [FragmentInfo.load] using h
  subst h'
  simp only [FragmentInfo.unconsolidated_metadata_num_fn]
  exact Nat.mod_eq_of_lt
    (Nat.lt_of_le_of_lt (List.countP_le_length _) hlen)

/-- A concrete two-fragment `FragmentInfo` used as a witness input. -/
def fragInfoW : FragmentInfo :=
  ⟨"a", ["d"],
   [⟨"u1", true, (0, 0), 0, 0, false, [], 0⟩,
    ⟨"u2", true, (0, 0), 0, 0, true, [], 0⟩], [], 0⟩

theorem load_unconsolidated_count_witness :
    ∃ fi : FragmentInfo, FragmentInfo.load true (.ok fragInfoW) = .ok fi ∧
      fi.unconsolidated_metadata_num_fn =
        fi.fragments.countP fun f => !f.has_consolidated_footer :=
  ⟨_, rfl, load_unconsolidated_count fragInfoW _ rfl
    (by norm_num [fragInfoW])⟩

/-- C9: The name-based `get_non_empty_domain` (and its `_var` and
`_var_size` variants) returns exactly the same status and output as the
index-based variant at the index of the first element of `dim_names_` equal
to the name, and returns `invalidDimName`, producing no output, when no
element matches. -/
theorem name_index_equiv (fi : FragmentInfo) (fid : Nat) (dimName : String)
    (domNull startNull endNull : Bool) :
    (∀ did, did < fi.dim_names.length →
      fi.dim_names.getD did "" = dimName →
      (∀ j, j < did → fi.dim_names.getD j "" ≠ dimName) →
      fi.get_non_empty_domain_by_name fid false dimName domNull =
        fi.get_non_empty_domain fid did domNull ∧
      fi.get_non_empty_domain_var_by_name fid false dimName startNull endNull =
        fi.get_non_empty_domain_var fid did startNull endNull ∧
      fi.get_non_empty_domain_var_size_by_name fid false dimName startNull
          endNull =
        fi.get_non_empty_domain_var_size fid did startNull endNull) ∧
    ((∀ j, j < fi.dim_names.length → fi.dim_names.getD j "" ≠ dimName) →
      fi.get_non_empty_domain_by_name fid false dimName domNull =
        .error .invalidDimName ∧
      fi.get_non_empty_domain_var_by_name fid false dimName startNull endNull =
        .error .invalidDimName ∧
      fi.get_non_empty_domain_var_size_by_name fid false dimName startNull
          endNull = .error .invalidDimName) := by
  constructor
  · intro did hd h2 h3
    have hgd : fi.dim_names.getD did "" = fi.dim_names[did] := by
      simp [List.getD_eq_getElem?_getD, List.getElem?_eq_getElem hd]
    have hfind : FragmentInfo.findDimIdx fi.dim_names dimName = did := by
      rw [FragmentInfo.findDimIdx]
      apply (List.findIdx_eq hd).mpr
      constructor
      · rw [← hgd, h2]
        simp
      · intro j hji
        have hj : fi.dim_names.getD j "" = fi.dim_names[j] := by
          simp [List.getD_eq_getElem?_getD,
            List.getElem?_eq_getElem (Nat.lt_trans hji hd)]
        have := h3 j hji
        rw [hj] at this
        simp only [beq_eq_false_iff_ne]
        exact fun he => this he.symm
    have hne : did ≠ fi.dim_names.length := Nat.ne_of_lt hd
    refine ⟨?_, ?_, ?_⟩ <;>
      simp [FragmentInfo.get_non_empty_domain_by_name,
        FragmentInfo.get_non_empty_domain_var_by_name,
        FragmentInfo.get_non_empty_domain_var_size_by_name, hfind, hne]
  · intro hall
    have hfind : FragmentInfo.findDimIdx fi.dim_names dimName =
        fi.dim_names.length := by
      rw [FragmentInfo.findDimIdx]
      apply List.findIdx_eq_length.mpr
      intro x hx
      rcases List.mem_iff_getElem.mp hx with ⟨j, hj, rfl⟩
      have hgd : fi.dim_names.getD j "" = fi.dim_names[j] := by
        simp [List.getD_eq_getElem?_getD, List.getElem?_eq_getElem hj]
      have := hall j hj
      rw [hgd] at this
      simp only [beq_eq_false_iff_ne]
      exact fun he => this he.symm
    refine ⟨?_, ?_, ?_⟩ <;>
      simp [FragmentInfo.get_non_empty_domain_by_name,
        FragmentInfo.get_non_empty_domain_var_by_name,
        FragmentInfo.get_non_empty_domain_var_size_by_name, hfind]

theorem name_index_equiv_witness :
    fragInfoW.get_non_empty_domain_by_name 0 false "d" false =
      fragInfoW.get_non_empty_domain 0 0 false :=
  ((name_index_equiv fragInfoW 0 "d" false false false).1 0 (by decide)
    (by decide) (fun j hj => absurd hj (by omega))).1

/-- C10: Every index-taking `FragmentInfo` accessor returns an error — and
writes nothing through its output pointer, reads `fragments_` only in
bounds, and leaves the object unchanged (the embedded functions are total
and pure) — whenever the output pointer is null or the fragment index is
out of range. -/
theorem accessor_bounds_safe (fi : FragmentInfo) (fid did : Nat)
    (b1 b2 : Bool) (h : b1 = true ∨ fi.fragments.length ≤ fid) :
    isErr (fi.get_dense fid b1) = true ∧
    isErr (fi.get_sparse fid b1) = true ∧
    isErr (fi.get_cell_num fid b1) = true ∧
    isErr (fi.get_fragment_size fid b1) = true ∧
    isErr (fi.get_fragment_uri fid b1) = true ∧
    isErr (fi.get_timestamp_range fid b1 b2) = true ∧
    isErr (fi.get_non_empty_domain fid did b1) = true ∧
    isErr (fi.get_version fid b1) = true ∧
    isErr (fi.has_consolidated_metadata fid b1) = true := by
  rcases h with h | h
  · subst h
    refine ⟨rfl, rfl, rfl, rfl, rfl, rfl, rfl, rfl, rfl⟩
  · cases b1
    · refine ⟨?_, ?_, ?_, ?_, ?_, ?_, ?_, ?_, ?_⟩ <;>
        · cases b2 <;>
            simp [FragmentInfo.get_dense, FragmentInfo.get_sparse,
              FragmentInfo.get_cell_num, FragmentInfo.get_fragment_size,
              FragmentInfo.get_fragment_uri, FragmentInfo.get_timestamp_range,
              FragmentInfo.get_non_empty_domain, FragmentInfo.get_version,
              FragmentInfo.has_consolidated_metadata, isErr, h]
    · refine ⟨rfl, rfl, rfl, rfl, rfl, rfl, rfl, rfl, rfl⟩

theorem accessor_bounds_safe_witness :
    isErr (fragInfoW.get_dense 5 false) = true :=
  (accessor_bounds_safe fragInfoW 5 0 false false
    (Or.inr (by norm_num [fragInfoW]))).1

end TileDB
